import Mathlib

/-!
Verification of the `git-changelog` commit-message parser, aggregator and
renderer (`src/main.rs`).  Rust strings are modelled as `List Char`; the two
precompiled regular expressions (`\n(\n|\s+\n)+` for blank-line splitting and
`\s+-\s+` for bullet-list splitting) are modelled by explicit structural
scanners that realise the same leftmost, greedy match semantics.
-/

set_option autoImplicit false

/-- The character class `\s` of the Rust regex crate (Unicode `White_Space`),
also the class trimmed by Rust `str::trim`. -/
def isWs (c : Char) : Bool :=
  c == ' ' || c == '\t' || c == '\n' || c == '\r' || c == '\x0b' || c == '\x0c' ||
  c == '\u0085' || c == ' ' || c == ' ' ||
  c == ' ' || c == ' ' || c == ' ' || c == ' ' || c == ' ' ||
  c == ' ' || c == ' ' || c == ' ' || c == ' ' || c == ' ' ||
  c == ' ' || c == ' ' || c == ' ' || c == ' ' || c == ' ' ||
  c == '　'

/-- Rust `str::split(sep)` for a one-character separator: keeps empty pieces,
always returns at least one piece. -/
def splitOnChar (sep : Char) : List Char → List (List Char)
  | [] => [[]]
  | c :: rest =>
    if c = sep then [] :: splitOnChar sep rest
    else
      match splitOnChar sep rest with
      | [] => [[c]]
      | s :: ss => (c :: s) :: ss

/-- Rust `str::trim`: remove leading and trailing whitespace. -/
def trim (l : List Char) : List Char :=
  ((l.dropWhile isWs).reverse.dropWhile isWs).reverse

/-- Rust `str::to_lowercase`, restricted to its effect on ASCII letters
(the only characters the parser compares case-insensitively). -/
def toLowerChar (c : Char) : Char :=
  if 'A' ≤ c ∧ c ≤ 'Z' then Char.ofNat (c.toNat + 32) else c

/-- Lowercase a whole string. -/
def lowerL (l : List Char) : List Char := l.map toLowerChar

/-- A line consisting only of whitespace (possibly empty). -/
def isBlankLine (l : List Char) : Bool := l.all isWs

/-- Segmentation machine for the blank-line splitter `\n(\n|\s+\n)+`.
The input string has been cut into lines at each `'\n'`; a match of the
splitter consumes the newline ending some line together with the maximal
following run of all-whitespace lines that are each terminated by a further
newline.  `skipping` records whether we are inside such a consumed run;
`cur` holds the (reversed) lines of the segment being built. -/
def segLinesAux : Bool → List (List Char) → List (List Char) → List (List (List Char))
  | _, cur, [] => [cur.reverse]
  | skipping, cur, l :: rest =>
    if isBlankLine l then
      match rest with
      | [] => [(l :: cur).reverse]
      | _ :: _ =>
        if skipping then segLinesAux true cur rest
        else cur.reverse :: segLinesAux true [] rest
    else segLinesAux false (l :: cur) rest

/-- Reassemble a segment from its lines. -/
def joinLines (ls : List (List Char)) : List Char := List.intercalate ['\n'] ls

/-- `SPLITTER.split`: split a raw commit message on the regex
`\n(\n|\s+\n)+` (blank-line boundaries). -/
def blankSplit (raw : List Char) : List (List Char) :=
  match splitOnChar '\n' raw with
  | [] => []
  | l0 :: rest => (segLinesAux false [l0] rest).map joinLines

/-- Splitting machine for `CLEANER.split` on the regex `\s+-\s+`.
States: 0 = scanning ordinary text; 1 = inside a pending whitespace run
(`pend`, reversed); 2 = pending run followed by `'-'`; 3 = consuming the
greedy trailing whitespace of a confirmed match.  `cur` holds the current
fragment, reversed. -/
def cleanSplitAux : Nat → List Char → List Char → List Char → List (List Char)
  | st, pend, cur, [] =>
    if st = 0 ∨ st = 3 then [cur.reverse] else [(pend ++ cur).reverse]
  | st, pend, cur, c :: rest =>
    if st = 0 then
      if isWs c then cleanSplitAux 1 [c] cur rest
      else cleanSplitAux 0 [] (c :: cur) rest
    else if st = 1 then
      if isWs c then cleanSplitAux 1 (c :: pend) cur rest
      else if c = '-' then cleanSplitAux 2 (c :: pend) cur rest
      else cleanSplitAux 0 [] (c :: (pend ++ cur)) rest
    else if st = 2 then
      if isWs c then cur.reverse :: cleanSplitAux 3 [] [] rest
      else cleanSplitAux 0 [] (c :: (pend ++ cur)) rest
    else
      if isWs c then cleanSplitAux 3 [] [] rest
      else cleanSplitAux 0 [] [c] rest

/-- `CLEANER.split` on a whole string. -/
def cleanSplit (input : List Char) : List (List Char) :=
  cleanSplitAux 0 [] [] input

/-- `FEAT_TYPE` of `main.rs`. -/
def FEAT_TYPE : Nat := 0

/-- `FIX_TYPE` of `main.rs`. -/
def FIX_TYPE : Nat := 1

/-- The `Report` struct of `main.rs`. -/
structure Report where
  header : List Char
  description : Option (List Char)
  context : List Char
  commit_type : Nat
  related_issues : List (List Char)
  solved_issues : List (List Char)
  breaking_changes : List (List Char)
deriving DecidableEq, Repr

/-- `parse_array` of `main.rs`: split on `\s+-\s+` and drop the label
fragment. -/
def parse_array (input : List Char) : List (List Char) :=
  (cleanSplit input).drop 1

/-- One iteration of the body loop of `parse_report` (`main.rs` lines
124-140): trim the segment, skip it when empty, dispatch on the three
recognised labels, otherwise overwrite the description. -/
def step (r : Report) (part : List Char) : Report :=
  let p := trim part
  if p = [] then r
  else if ("solves:\n".toList).isPrefixOf (lowerL p) then
    { r with solved_issues := parse_array p }
  else if ("related:\n".toList).isPrefixOf (lowerL p) then
    { r with related_issues := parse_array p }
  else if ("breaking_changes:\n".toList).isPrefixOf (lowerL p)
      || ("breaking changes:\n".toList).isPrefixOf (lowerL p) then
    { r with breaking_changes := parse_array p }
  else
    { r with description := some p }

/-- The headline analysis of `parse_report` (`main.rs` lines 84-122):
split on `':'`, fail when fewer than two parts, split the first part on
`'('`, classify the type token case-insensitively and build the initial
`Report`.  `context` is the second `'('`-piece with every `')'` removed
(Rust `replace(")", "")`). -/
def parse_headline (raw_head_line : List Char) : Option Report :=
  let headline_parts := splitOnChar ':' raw_head_line
  if headline_parts.length < 2 then none
  else
    let raw_context_and_type := headline_parts.headD []
    let rest_parts := headline_parts.drop 1
    let type_parts := splitOnChar '(' raw_context_and_type
    let commit_type := type_parts.headD []
    let paren_parts := type_parts.drop 1
    let context :=
      match paren_parts with
      | [] => []
      | c :: _ => c.filter (fun ch => ch != ')')
    let headline := trim (List.intercalate [':'] rest_parts)
    let lt := lowerL commit_type
    if lt = "feat".toList ∨ lt = "feature".toList then
      some ⟨headline, none, context, FEAT_TYPE, [], [], []⟩
    else if lt = "fix".toList then
      some ⟨headline, none, context, FIX_TYPE, [], [], []⟩
    else none

/-- `parse_report` of `main.rs`: split the message at blank-line
boundaries, analyse the headline segment, then fold the body segments. -/
def parse_report (raw_input : List Char) : Option Report :=
  let split := blankSplit raw_input
  let raw_head_line := split.headD []
  match parse_headline raw_head_line with
  | none => none
  | some r => some ((split.drop 1).foldl step r)

/-- The `parse_report` pipeline with the two `Vec::remove(0)` calls made
explicit: the outer `none` marks the index-out-of-bounds abort those calls
would raise on an empty vector.  Used to state that `parse_report` never
aborts. -/
def parse_report_checked (raw_input : List Char) : Option (Option Report) :=
  let split := blankSplit raw_input
  let raw_head_line := split.headD []
  let headline_parts := splitOnChar ':' raw_head_line
  if headline_parts.length < 2 then some none
  else
    match headline_parts with
    | [] => none
    | raw_context_and_type :: rest_parts =>
      match splitOnChar '(' raw_context_and_type with
      | [] => none
      | commit_type :: paren_parts =>
        let context :=
          match paren_parts with
          | [] => []
          | c :: _ => c.filter (fun ch => ch != ')')
        let headline := trim (List.intercalate [':'] rest_parts)
        let lt := lowerL commit_type
        let base : Option Report :=
          if lt = "feat".toList ∨ lt = "feature".toList then
            some ⟨headline, none, context, FEAT_TYPE, [], [], []⟩
          else if lt = "fix".toList then
            some ⟨headline, none, context, FIX_TYPE, [], [], []⟩
          else none
        match base with
        | none => some none
        | some r => some (some ((split.drop 1).foldl step r))

/-- Byte-wise (here: code-point-wise, which agrees with UTF-8 byte order)
strict lexicographic order on strings, the `Ord` used by
`BTreeMap<String, _>`. -/
def strLt : List Char → List Char → Bool
  | [], [] => false
  | [], _ :: _ => true
  | _ :: _, [] => false
  | a :: as, b :: bs => if a < b then true else if b < a then false else strLt as bs

/-- The `ReportAggregator` struct of `main.rs`.  The `BTreeMap` is modelled
as an association list kept sorted by `strLt`; the two-slot array
`[Vec<Report>; 2]` becomes a pair (`FEAT_TYPE = 0` selects the first
component, `FIX_TYPE = 1` the second). -/
structure ReportAggregator where
  reports : List (List Char × (List Report × List Report))
  breaking_changes : List (List Char)
deriving DecidableEq, Repr

/-- `ReportAggregator::new`. -/
def ReportAggregator.new : ReportAggregator := ⟨[], []⟩

/-- Indexing `[Vec<Report>; 2]` with `report.commit_type` and pushing:
`none` models the index-out-of-bounds abort for a commit type other than
`0` or `1`. -/
def bucketPush (ct : Nat) (r : Report) (v : List Report × List Report) :
    Option (List Report × List Report) :=
  if ct = FEAT_TYPE then some (v.1 ++ [r], v.2)
  else if ct = FIX_TYPE then some (v.1, v.2 ++ [r])
  else none

/-- `self.reports.entry(context).or_insert([vec![], vec![]])[ct].push(r)`
on the sorted association list. -/
def mapUpdate (k : List Char) (ct : Nat) (r : Report) :
    List (List Char × (List Report × List Report)) →
    Option (List (List Char × (List Report × List Report)))
  | [] => (bucketPush ct r ([], [])).map (fun v => [(k, v)])
  | (k', v') :: rest =>
    if strLt k k' then
      (bucketPush ct r ([], [])).map (fun v => (k, v) :: (k', v') :: rest)
    else if k = k' then
      (bucketPush ct r v').map (fun v => (k, v) :: rest)
    else
      (mapUpdate k ct r rest).map (fun m => (k', v') :: m)

/-- `ReportAggregator::add_report`: append the breaking-change entries to
the flat list and push the report into its `(context, commit_type)`
bucket. -/
def ReportAggregator.add_report (agg : ReportAggregator) (r : Report) :
    Option ReportAggregator :=
  (mapUpdate r.context r.commit_type r agg.reports).map
    (fun m => ⟨m, agg.breaking_changes ++ r.breaking_changes⟩)

/-- Feed a list of reports to the aggregator in order. -/
def addAll (agg : ReportAggregator) : List Report → Option ReportAggregator
  | [] => some agg
  | r :: rs =>
    match agg.add_report r with
    | none => none
    | some a => addAll a rs

/-- `Report::print`: `writeln!("⟨header⟩\n")` then the optional
description via `writeln!("⟨description⟩")`. -/
def Report.print (r : Report) : List Char :=
  r.header ++ "\n\n".toList ++
  (match r.description with
   | some d => d ++ ['\n']
   | none => [])

/-- The Feature block of one context in `ReportAggregator::print`. -/
def featBlock (k : List Char) (feats : List Report) : List Char :=
  if feats.length > 0 then
    (if k = [] then "### General Features\n\n".toList else "#### Features\n\n".toList) ++
    (feats.foldl (fun a r => a ++ r.print) []) ++ ['\n']
  else []

/-- The Fix block of one context in `ReportAggregator::print`. -/
def fixBlock (k : List Char) (fixes : List Report) : List Char :=
  if fixes.length > 0 then
    (if k = [] then "### General Fixes\n\n".toList else "#### Fixes\n\n".toList) ++
    (fixes.foldl (fun a r => a ++ r.print) []) ++ ['\n']
  else []

/-- One `(context, buckets)` entry of `ReportAggregator::print`: the
optional context heading, then the Feature block, then the Fix block. -/
def contextBlock (e : List Char × (List Report × List Report)) : List Char :=
  (if (e.2.2.length > 0 ∨ e.2.1.length > 0) ∧ e.1 ≠ [] then
     "### ".toList ++ e.1 ++ "\n\n".toList
   else []) ++
  featBlock e.1 e.2.1 ++ fixBlock e.1 e.2.2

/-- The trailing breaking-changes section of `ReportAggregator::print`. -/
def breakingBlock (bcs : List (List Char)) : List Char :=
  if bcs.length > 0 then
    "### BREAKING CHANGES\n\n".toList ++
    (bcs.foldl (fun a bc => a ++ bc ++ "\n\n".toList) [])
  else []

/-- `ReportAggregator::print`: iterate the map entries in key order, then
emit the breaking-changes section. -/
def ReportAggregator.print (agg : ReportAggregator) : List Char :=
  (agg.reports.foldl (fun a e => a ++ contextBlock e) []) ++
  breakingBlock agg.breaking_changes

/-- A commit object, as far as `find_latest_tag_commit_id` inspects it:
its object id and its timestamp in seconds. -/
structure TagCommit where
  id : Nat
  time : Int
deriving DecidableEq, Repr

/-- A git object a tag name resolves to: all that matters is whether
`peel_to_commit` succeeds. -/
structure TagObject where
  peel_to_commit : Option TagCommit
deriving DecidableEq, Repr

/-- The repository interface used by `find_latest_tag_commit_id`:
`tag_names` (a name is `none` when not valid UTF-8) and
`revparse_single`. -/
structure TagRepo where
  tag_names : List (Option (List Char))
  revparse_single : List Char → Option TagObject

/-- The tag-collection loop of `find_latest_tag_commit_id`:
`revparse_single(tag).expect(..)` aborts (modelled by `none`) when a tag
name does not resolve; `peel_to_commit().ok()` silently skips objects that
are not commits. -/
def collectTagCommits (rv : List Char → Option TagObject) :
    List (List Char) → Option (List TagCommit)
  | [] => some []
  | t :: ts =>
    match rv t with
    | none => none
    | some obj =>
      match obj.peel_to_commit with
      | none => collectTagCommits rv ts
      | some c => (collectTagCommits rv ts).map (fun cs => c :: cs)

/-- Stable insertion used to model the stable `sort_by` on
`time().seconds()`. -/
def insertByTime (c : TagCommit) : List TagCommit → List TagCommit
  | [] => [c]
  | x :: xs => if c.time < x.time then c :: x :: xs else x :: insertByTime c xs

/-- Stable sort by timestamp (extensionally equal to Rust's stable
`sort_by` under the total order on seconds). -/
def sortByTime (l : List TagCommit) : List TagCommit :=
  l.foldl (fun acc c => insertByTime c acc) []

/-- `find_latest_tag_commit_id` of `main.rs`: filter out non-UTF-8 tag
names, resolve every remaining name (aborting — outer `none` — on the
first unresolvable one), keep the commits, sort by timestamp and return
the id of the last one. -/
def find_latest_tag_commit_id (repo : TagRepo) : Option (Option Nat) :=
  match collectTagCommits repo.revparse_single (repo.tag_names.filterMap id) with
  | none => none
  | some cs => some ((sortByTime cs).getLast?.map TagCommit.id)

/-- The text after the first occurrence of `sep`, when present. -/
def afterFirst (sep : Char) : List Char → Option (List Char)
  | [] => none
  | c :: rest => if c = sep then some rest else afterFirst sep rest

/-- The first line of a message (what precedes the first `'\n'`). -/
def firstLine (m : List Char) : List Char := m.takeWhile (fun c => c != '\n')

/-- The headline segment of a message: what precedes the first blank-line
boundary. -/
def headlineSeg (m : List Char) : List Char := (blankSplit m).headD []

/-- The type token of a message per the spec: the text of the headline
segment before the first `':'` and before any `'('`. -/
def typeTok (m : List Char) : List Char :=
  (headlineSeg m).takeWhile (fun c => c != ':' && c != '(')

theorem splitOnChar_ne_nil (sep : Char) (l : List Char) : splitOnChar sep l ≠ [] := by
  cases l with
  | nil => simp [splitOnChar]
  | cons c rest =>
    simp only [splitOnChar]
    split
    · simp
    · split <;> simp

theorem intercalate_splitOnChar (sep : Char) (l : List Char) :
    List.intercalate [sep] (splitOnChar sep l) = l := by
  induction l with
  | nil => simp [splitOnChar, List.intercalate]
  | cons c rest ih =>
    simp only [splitOnChar]
    split
    · rename_i hc
      subst hc
      rcases hs : splitOnChar c rest with _ | ⟨s, ss⟩
      · exact absurd hs (splitOnChar_ne_nil c rest)
      · rw [hs] at ih
        simpa [List.intercalate, List.intersperse] using ih
    · rcases hs : splitOnChar sep rest with _ | ⟨s, ss⟩
      · exact absurd hs (splitOnChar_ne_nil sep rest)
      · rw [hs] at ih
        cases ss with
        | nil => simpa [List.intercalate] using congrArg (c :: ·) ih
        | cons s2 ss2 =>
          rw [show List.intercalate [sep] ((c :: s) :: s2 :: ss2) =
                (c :: s) ++ [sep] ++ List.intercalate [sep] (s2 :: ss2) by
              simp [List.intercalate, List.intersperse]]
          rw [show List.intercalate [sep] (s :: s2 :: ss2) =
                s ++ [sep] ++ List.intercalate [sep] (s2 :: ss2) by
              simp [List.intercalate, List.intersperse]] at ih
          simpa using ih

theorem splitOnChar_of_not_mem (sep : Char) (l : List Char) (h : sep ∉ l) :
    splitOnChar sep l = [l] := by
  induction l with
  | nil => simp [splitOnChar]
  | cons c rest ih =>
    simp only [List.mem_cons, not_or] at h
    simp only [splitOnChar, if_neg (Ne.symm h.1)]
    rw [ih h.2]

theorem splitOnChar_of_afterFirst (sep : Char) (l x : List Char)
    (h : afterFirst sep l = some x) :
    splitOnChar sep l = (l.takeWhile (fun c => c != sep)) :: splitOnChar sep x := by
  induction l with
  | nil => simp [afterFirst] at h
  | cons c rest ih =>
    by_cases hc : c = sep
    · subst hc
      have hx : rest = x := by simpa [afterFirst] using h
      subst hx
      simp [splitOnChar, List.takeWhile_cons]
    · simp only [afterFirst, if_neg hc] at h
      have hb : (c != sep) = true := by simp [hc]
      simp only [splitOnChar, if_neg hc, ih h, List.takeWhile_cons, hb, if_pos]

theorem afterFirst_eq_none_iff (sep : Char) (l : List Char) :
    afterFirst sep l = none ↔ sep ∉ l := by
  induction l with
  | nil => simp [afterFirst]
  | cons c rest ih =>
    by_cases hc : c = sep
    · subst hc
      simp [afterFirst]
    · simp [afterFirst, if_neg hc, ih, Ne.symm hc, hc]

theorem takeWhile_append_takeWhile (p q : Char → Bool) (l : List Char) :
    (l.takeWhile p).takeWhile q = l.takeWhile (fun c => p c && q c) := by
  induction l with
  | nil => simp
  | cons c rest ih =>
    by_cases hp : p c
    · by_cases hq : q c
      · simp [List.takeWhile, hp, hq, ih]
      · simp [List.takeWhile, hp, hq]
    · simp [List.takeWhile, hp]

/-- Strip one trailing `')'` when present. -/
def stripTrailingParen (l : List Char) : List Char :=
  match l.getLast? with
  | some ')' => l.dropLast
  | _ => l

/-- The context extraction exactly as the claim words it: the piece after
the first `'('`, with a trailing `')'` stripped if present; empty when no
parenthesis group is present. -/
def specContextC1 (tok : List Char) : List Char :=
  match afterFirst '(' tok with
  | none => []
  | some piece => stripTrailingParen piece

/-- The context extraction the code actually performs, worded
independently: the piece after the first `'('` and before any following
`'('`, with every `')'` removed; empty when no `'('` is present. -/
def specContextAmended (tok : List Char) : List Char :=
  match afterFirst '(' tok with
  | none => []
  | some piece => (piece.takeWhile (fun c => c != '(')).filter (fun ch => ch != ')')

theorem splitOnChar_headD (sep : Char) (l : List Char) :
    (splitOnChar sep l).headD [] = l.takeWhile (fun c => c != sep) := by
  induction l with
  | nil => simp [splitOnChar]
  | cons c rest ih =>
    by_cases hc : c = sep
    · subst hc
      simp [splitOnChar, List.takeWhile_cons]
    · have hb : (c != sep) = true := by simp [hc]
      rcases hs : splitOnChar sep rest with _ | ⟨s, ss⟩
      · exact absurd hs (splitOnChar_ne_nil sep rest)
      · rw [hs] at ih
        simp only [splitOnChar, if_neg hc, hs, List.takeWhile_cons, hb, if_pos]
        simpa using ih

/-- Complete characterisation of a successful headline analysis: the
header is the trimmed text after the first `':'`, the context follows the
(amended) extraction formula, the commit type is Feature or Fix, and all
other fields start out empty. -/
theorem parse_headline_some (hl : List Char) (r : Report)
    (h : parse_headline hl = some r) :
    ∃ x, afterFirst ':' hl = some x ∧
      r.header = trim x ∧
      r.context = specContextAmended (hl.takeWhile (fun c => c != ':')) ∧
      (r.commit_type = FEAT_TYPE ∨ r.commit_type = FIX_TYPE) ∧
      r.description = none ∧
      r.related_issues = [] ∧ r.solved_issues = [] ∧ r.breaking_changes = [] := by
  cases haf : afterFirst ':' hl with
  | none =>
    have h1 : splitOnChar ':' hl = [hl] :=
      splitOnChar_of_not_mem ':' hl ((afterFirst_eq_none_iff ':' hl).mp haf)
    rw [parse_headline] at h
    rw [h1] at h
    simp at h
  | some x =>
    refine ⟨x, rfl, ?_⟩
    have h1 : splitOnChar ':' hl = (hl.takeWhile (fun c => c != ':')) :: splitOnChar ':' x :=
      splitOnChar_of_afterFirst ':' hl x haf
    rcases hs : splitOnChar ':' x with _ | ⟨s, ss⟩
    · exact absurd hs (splitOnChar_ne_nil ':' x)
    rw [hs] at h1
    rw [parse_headline, h1] at h
    have hx : List.intercalate [':'] (s :: ss) = x := by
      rw [← hs]; exact intercalate_splitOnChar ':' x
    simp only [List.length_cons, Nat.not_lt_eq, List.headD_cons, List.drop_succ_cons,
      List.drop_zero, hx] at h
    rw [if_neg (by omega)] at h
    set tok := hl.takeWhile (fun c => c != ':') with htok
    cases hpf : afterFirst '(' tok with
    | none =>
      have h2 : splitOnChar '(' tok = [tok] :=
        splitOnChar_of_not_mem '(' tok ((afterFirst_eq_none_iff '(' tok).mp hpf)
      rw [h2] at h
      simp only [List.headD_cons, List.drop_succ_cons, List.drop_zero] at h
      have hctx : specContextAmended tok = [] := by
        rw [specContextAmended, hpf]
      rw [hctx]
      split at h
      · cases h
        exact ⟨rfl, rfl, Or.inl rfl, rfl, rfl, rfl, rfl⟩
      · split at h
        · cases h
          exact ⟨rfl, rfl, Or.inr rfl, rfl, rfl, rfl, rfl⟩
        · cases h
    | some y =>
      have h2 : splitOnChar '(' tok = (tok.takeWhile (fun c => c != '(')) :: splitOnChar '(' y :=
        splitOnChar_of_afterFirst '(' tok y hpf
      rcases hy : splitOnChar '(' y with _ | ⟨t, ts⟩
      · exact absurd hy (splitOnChar_ne_nil '(' y)
      rw [hy] at h2
      rw [h2] at h
      have ht : t = y.takeWhile (fun c => c != '(') := by
        have := splitOnChar_headD '(' y
        rw [hy] at this
        simpa using this
      simp only [List.headD_cons, List.drop_succ_cons, List.drop_zero] at h
      have hctx : specContextAmended tok = t.filter (fun ch => ch != ')') := by
        rw [specContextAmended, hpf, ht]
      rw [hctx]
      split at h
      · cases h
        exact ⟨rfl, rfl, Or.inl rfl, rfl, rfl, rfl, rfl⟩
      · split at h
        · cases h
          exact ⟨rfl, rfl, Or.inr rfl, rfl, rfl, rfl, rfl⟩
        · cases h

/-- A trimmed body segment that carries one of the three recognised
labels. -/
def isLabeled (p : List Char) : Bool :=
  ("solves:\n".toList).isPrefixOf (lowerL p) ||
  ("related:\n".toList).isPrefixOf (lowerL p) ||
  ("breaking_changes:\n".toList).isPrefixOf (lowerL p) ||
  ("breaking changes:\n".toList).isPrefixOf (lowerL p)

/-- The description the spec promises: the last body segment that is
non-empty after trimming and not one of the labelled sections. -/
def specLastUnlabeled (segs : List (List Char)) : Option (List Char) :=
  ((segs.map trim).filter (fun p => p != [] && !(isLabeled p))).getLast?

theorem step_header (r : Report) (part : List Char) : (step r part).header = r.header := by
  simp only [step]
  split_ifs <;> rfl

theorem step_context (r : Report) (part : List Char) : (step r part).context = r.context := by
  simp only [step]
  split_ifs <;> rfl

theorem step_commit_type (r : Report) (part : List Char) :
    (step r part).commit_type = r.commit_type := by
  simp only [step]
  split_ifs <;> rfl

theorem foldl_step_header (segs : List (List Char)) (r : Report) :
    (segs.foldl step r).header = r.header := by
  induction segs generalizing r with
  | nil => rfl
  | cons s ss ih => rw [List.foldl_cons, ih, step_header]

theorem foldl_step_context (segs : List (List Char)) (r : Report) :
    (segs.foldl step r).context = r.context := by
  induction segs generalizing r with
  | nil => rfl
  | cons s ss ih => rw [List.foldl_cons, ih, step_context]

theorem foldl_step_commit_type (segs : List (List Char)) (r : Report) :
    (segs.foldl step r).commit_type = r.commit_type := by
  induction segs generalizing r with
  | nil => rfl
  | cons s ss ih => rw [List.foldl_cons, ih, step_commit_type]

theorem step_description (r : Report) (part : List Char) :
    (step r part).description =
      if (trim part != [] && !(isLabeled (trim part))) = true then some (trim part)
      else r.description := by
  by_cases h0 : trim part = []
  · rw [if_neg (by simp [h0])]
    simp [step, h0]
  · by_cases hL : isLabeled (trim part) = true
    · rw [if_neg (by simp [hL])]
      simp only [step, if_neg h0]
      by_cases c1 : ("solves:\n".toList).isPrefixOf (lowerL (trim part)) = true
      · rw [if_pos c1]
      · rw [if_neg c1]
        by_cases c2 : ("related:\n".toList).isPrefixOf (lowerL (trim part)) = true
        · rw [if_pos c2]
        · rw [if_neg c2]
          by_cases c3 : (("breaking_changes:\n".toList).isPrefixOf (lowerL (trim part)) ||
              ("breaking changes:\n".toList).isPrefixOf (lowerL (trim part))) = true
          · rw [if_pos c3]
          · exfalso
            simp only [isLabeled, Bool.or_eq_true] at hL
            rcases hL with ((ha | hb) | hc) | hd
            · exact c1 ha
            · exact c2 hb
            · exact c3 (by rw [hc, Bool.true_or])
            · exact c3 (by rw [hd, Bool.or_true])
    · have hLf : isLabeled (trim part) = false := by
        cases hv : isLabeled (trim part)
        · rfl
        · exact absurd hv hL
      rw [if_pos (by simp [h0, hLf])]
      simp only [isLabeled, Bool.or_eq_true, not_or] at hL
      obtain ⟨⟨⟨n1, n2⟩, n3⟩, n4⟩ := hL
      simp only [step, if_neg h0, if_neg n1, if_neg n2]
      rw [if_neg (show ¬ (("breaking_changes:\n".toList).isPrefixOf (lowerL (trim part)) ||
          ("breaking changes:\n".toList).isPrefixOf (lowerL (trim part))) = true by
        simp only [Bool.or_eq_true, not_or]
        exact ⟨n3, n4⟩)]

theorem getLast?_cons_getD {α : Type} (a : α) (l : List α) :
    (a :: l).getLast? = some (l.getLast?.getD a) := by
  cases hl : l.getLast? with
  | none =>
    have : l = [] := by
      cases l with
      | nil => rfl
      | cons b bs => simp [List.getLast?_eq_getLast] at hl
    subst this
    rfl
  | some b =>
    cases l with
    | nil => simp at hl
    | cons c cs => rw [List.getLast?_cons_cons, hl]; rfl

theorem specLastUnlabeled_cons (s : List Char) (ss : List (List Char)) :
    specLastUnlabeled (s :: ss) =
      if (trim s != [] && !(isLabeled (trim s))) = true then
        some ((specLastUnlabeled ss).getD (trim s))
      else specLastUnlabeled ss := by
  by_cases hq : (trim s != [] && !(isLabeled (trim s))) = true
  · rw [if_pos hq, specLastUnlabeled, List.map_cons, List.filter_cons, if_pos hq,
      getLast?_cons_getD]
    rfl
  · rw [if_neg hq, specLastUnlabeled, List.map_cons, List.filter_cons, if_neg hq]
    rfl

theorem foldl_step_description (segs : List (List Char)) (r : Report) :
    (segs.foldl step r).description =
      match specLastUnlabeled segs with
      | some d => some d
      | none => r.description := by
  induction segs generalizing r with
  | nil => simp [specLastUnlabeled]
  | cons s ss ih =>
    rw [List.foldl_cons, ih (step r s), step_description, specLastUnlabeled_cons]
    by_cases hq : (trim s != [] && !(isLabeled (trim s))) = true
    · rw [if_pos hq, if_pos hq]
      cases specLastUnlabeled ss <;> rfl
    · rw [if_neg hq, if_neg hq]

theorem parse_report_decomp (m : List Char) (r : Report) (h : parse_report m = some r) :
    ∃ r0, parse_headline (headlineSeg m) = some r0 ∧
      r = ((blankSplit m).drop 1).foldl step r0 := by
  rw [parse_report, headlineSeg] at *
  cases hh : parse_headline ((blankSplit m).headD []) with
  | none => rw [hh] at h; cases h
  | some r0 =>
    rw [hh] at h
    cases h
    exact ⟨r0, rfl, rfl⟩

theorem parse_report_eq_none (m : List Char) (h : parse_headline (headlineSeg m) = none) :
    parse_report m = none := by
  simp only [headlineSeg] at h
  simp only [parse_report, h]

theorem parse_headline_no_colon (hl : List Char) (h : ':' ∉ hl) :
    parse_headline hl = none := by
  have h1 : splitOnChar ':' hl = [hl] := splitOnChar_of_not_mem ':' hl h
  simp only [parse_headline, h1, List.length_singleton]
  rw [if_pos (by omega)]

theorem parse_headline_type (hl : List Char) (r : Report) (h : parse_headline hl = some r) :
    lowerL ((hl.takeWhile (fun c => c != ':')).takeWhile (fun c => c != '(')) = "feat".toList ∨
    lowerL ((hl.takeWhile (fun c => c != ':')).takeWhile (fun c => c != '(')) = "feature".toList ∨
    lowerL ((hl.takeWhile (fun c => c != ':')).takeWhile (fun c => c != '(')) = "fix".toList := by
  simp only [parse_headline] at h
  split at h
  · cases h
  · split at h
    · rename_i hfeat
      rw [splitOnChar_headD, splitOnChar_headD] at hfeat
      rcases hfeat with hf | hf
      · exact Or.inl hf
      · exact Or.inr (Or.inl hf)
    · split at h
      · rename_i hfix
        rw [splitOnChar_headD, splitOnChar_headD] at hfix
        exact Or.inr (Or.inr hfix)
      · cases h

example : blankSplit "a\n\nb".toList = ["a".toList, "b".toList] := by decide
example : blankSplit "a\n  \nb".toList = ["a".toList, "b".toList] := by decide
example : blankSplit "a\n\n".toList = ["a".toList, [] ] := by decide
example : blankSplit "a\n ".toList = ["a\n ".toList] := by decide
example : cleanSplit "Solves:\n - a\n - b".toList =
    ["Solves:".toList, "a".toList, "b".toList] := by decide
example : parse_report "fix: Some fix".toList =
    some ⟨"Some fix".toList, none, [], FIX_TYPE, [], [], []⟩ := by decide
example : parse_report "feat:".toList =
    some ⟨[], none, [], FEAT_TYPE, [], [], []⟩ := by decide
example : parse_report "nope: x".toList = none := by decide
example :
    parse_report "feat(cmd/update): Insert some stuff\n\nSolves:\n - hallo\n - welt".toList =
    some ⟨"Insert some stuff".toList, none, "cmd/update".toList, FEAT_TYPE,
          [], ["hallo".toList, "welt".toList], []⟩ := by decide

/-- Claim C1, counterexample: on the headline `feat(a)b): x` the claim's
formula (the piece after the first `'('` with only a trailing `')'`
stripped) yields `a)b`, but `parse_report` — which removes every `')'` —
yields context `ab`: the non-trailing `')'` is not preserved. -/
theorem c1_counterexample :
    parse_report "feat(a)b): x".toList =
      some ⟨"x".toList, none, "ab".toList, FEAT_TYPE, [], [], []⟩ ∧
    specContextC1 ((headlineSeg "feat(a)b): x".toList).takeWhile (fun c => c != ':')) =
      "a)b".toList ∧
    "ab".toList ≠ "a)b".toList := by
  exact ⟨by decide, by decide, by decide⟩

/-- Claim C1 (amended): every report `parse_report` returns has as context
the piece of the type-and-context token after the first `'('` and before
any following `'('`, with every `')'` character removed; the context is
empty when no `'('` is present. -/
theorem c1_context_amended (m : List Char) (r : Report) (h : parse_report m = some r) :
    r.context = specContextAmended ((headlineSeg m).takeWhile (fun c => c != ':')) := by
  obtain ⟨r0, h0, rfl⟩ := parse_report_decomp m r h
  rw [foldl_step_context]
  obtain ⟨x, _, _, hctx, _⟩ := parse_headline_some _ _ h0
  exact hctx

/-- Witness for `c1_context_amended` at the input `feat(a(b)c): x`:
the context stops at the second `'('`. -/
theorem c1_context_amended_witness :
    Report.context ⟨"x".toList, none, "a".toList, FEAT_TYPE, [], [], []⟩ =
      specContextAmended ((headlineSeg "feat(a(b)c): x".toList).takeWhile (fun c => c != ':')) :=
  c1_context_amended "feat(a(b)c): x".toList _ (by decide)

/-- Claim C2, counterexample: `parse_report` accepts the message `feat:`
and returns a report whose header is the empty string, so the claimed
invariant "a Report always has a non-empty header" fails. -/
theorem c2_counterexample :
    parse_report "feat:".toList = some ⟨[], none, [], FEAT_TYPE, [], [], []⟩ := by
  decide

/-- Claim C2 (amended): every report `parse_report` returns has commit
type Feature or Fix; the header, however, may be empty. -/
theorem c2_commit_type_amended (m : List Char) (r : Report) (h : parse_report m = some r) :
    r.commit_type = FEAT_TYPE ∨ r.commit_type = FIX_TYPE := by
  obtain ⟨r0, h0, rfl⟩ := parse_report_decomp m r h
  rw [foldl_step_commit_type]
  obtain ⟨x, _, _, _, hct, _⟩ := parse_headline_some _ _ h0
  exact hct

/-- Witness for `c2_commit_type_amended` at the input `Fix: y`. -/
theorem c2_commit_type_amended_witness :
    Report.commit_type ⟨"y".toList, none, [], FIX_TYPE, [], [], []⟩ = FEAT_TYPE ∨
    Report.commit_type ⟨"y".toList, none, [], FIX_TYPE, [], [], []⟩ = FIX_TYPE :=
  c2_commit_type_amended "Fix: y".toList _ (by decide)

/-- Claim C3, counterexample: the first line of `feat(\nctx): x` contains
no `':'`, yet `parse_report` accepts the message, because the code splits
the headline from the rest at blank-line boundaries, not at the first
newline. -/
theorem c3_counterexample :
    (':' ∉ firstLine "feat(\nctx): x".toList) ∧
    parse_report "feat(\nctx): x".toList =
      some ⟨"x".toList, none, "\nctx".toList, FEAT_TYPE, [], [], []⟩ := by
  exact ⟨by decide, by decide⟩

/-- Claim C3 (amended): a message whose headline segment (the text before
the first blank-line boundary) contains no `':'` is rejected, and a
message whose type token — the headline text before the first `':'` and
before any `'('` — is not `feat`, `feature` or `fix` case-insensitively is
rejected. -/
theorem c3_reject_amended (m : List Char) :
    (':' ∉ headlineSeg m → parse_report m = none) ∧
    (lowerL (typeTok m) ≠ "feat".toList → lowerL (typeTok m) ≠ "feature".toList →
      lowerL (typeTok m) ≠ "fix".toList → parse_report m = none) := by
  constructor
  · intro hc
    exact parse_report_eq_none m (parse_headline_no_colon _ hc)
  · intro h1 h2 h3
    cases hres : parse_report m with
    | none => rfl
    | some r =>
      exfalso
      obtain ⟨r0, h0, _⟩ := parse_report_decomp m r hres
      have := parse_headline_type _ _ h0
      rw [takeWhile_append_takeWhile] at this
      rcases this with hf | hf | hf
      · exact h1 hf
      · exact h2 hf
      · exact h3 hf

/-- Witness for `c3_reject_amended`: a message without a colon and a
message with an unrecognised type token are both rejected. -/
theorem c3_reject_amended_witness :
    parse_report "hello world".toList = none ∧
    parse_report "chore: tidy".toList = none :=
  ⟨(c3_reject_amended "hello world".toList).1 (by decide),
   (c3_reject_amended "chore: tidy".toList).2 (by decide) (by decide) (by decide)⟩

/-- Claim C6: for every accepted message the header is the headline text
after the first `':'`, trimmed — equivalently the remaining colon-
delimited parts rejoined with `':'`, so internal colons survive. -/
theorem c6_header (m : List Char) (r : Report) (h : parse_report m = some r) :
    r.header = trim ((afterFirst ':' (headlineSeg m)).getD []) := by
  obtain ⟨r0, h0, rfl⟩ := parse_report_decomp m r h
  rw [foldl_step_header]
  obtain ⟨x, hx, hhead, _⟩ := parse_headline_some _ _ h0
  rw [hhead, hx]
  rfl

/-- Witness for `c6_header` at the input `feat: a:b: c`, whose subject
contains internal colons. -/
theorem c6_header_witness :
    Report.header ⟨"a:b: c".toList, none, [], FEAT_TYPE, [], [], []⟩ =
      trim ((afterFirst ':' (headlineSeg "feat: a:b: c".toList)).getD []) :=
  c6_header "feat: a:b: c".toList _ (by decide)

/-- Claim C8: the description of every accepted message is the last body
segment that is non-empty after trimming and carries none of the three
recognised labels (later unlabeled segments overwrite earlier ones);
when no such segment exists the description is absent. -/
theorem c8_description_last (m : List Char) (r : Report) (h : parse_report m = some r) :
    r.description = specLastUnlabeled ((blankSplit m).drop 1) := by
  obtain ⟨r0, h0, rfl⟩ := parse_report_decomp m r h
  rw [foldl_step_description]
  obtain ⟨x, _, _, _, _, hdesc, _⟩ := parse_headline_some _ _ h0
  cases hss : specLastUnlabeled ((blankSplit m).drop 1)
  · exact hdesc
  · rfl

/-- Witness for `c8_description_last` at a message with two unlabeled body
segments: the later one wins. -/
theorem c8_description_last_witness :
    Report.description
        ⟨"t".toList, some "second".toList, [], FEAT_TYPE, [], [], []⟩ =
      specLastUnlabeled ((blankSplit "feat: t\n\nfirst\n\nsecond".toList).drop 1) :=
  c8_description_last "feat: t\n\nfirst\n\nsecond".toList _ (by decide)

/-- Claim C9: `parse_report` is total and never hits the two potentially
aborting `Vec::remove(0)` calls: the instrumented variant
`parse_report_checked`, which returns `none` where those calls would
abort, agrees with `some (parse_report raw)` on every input. -/
theorem c9_parse_total (raw : List Char) :
    parse_report_checked raw = some (parse_report raw) := by
  rcases hp : splitOnChar ':' ((blankSplit raw).headD []) with _ | ⟨a, as⟩
  · exact absurd hp (splitOnChar_ne_nil _ _)
  rcases ht : splitOnChar '(' a with _ | ⟨ct, ps⟩
  · exact absurd ht (splitOnChar_ne_nil _ _)
  simp only [parse_report_checked, parse_report, parse_headline, hp, ht]
  by_cases hlen : (a :: as).length < 2
  · rw [if_pos hlen, if_pos hlen]
  · rw [if_neg hlen, if_neg hlen]
    simp only [List.headD_cons, List.drop_succ_cons, List.drop_zero, ht]
    by_cases hf : lowerL ct = "feat".toList ∨ lowerL ct = "feature".toList
    · rw [if_pos hf]
    · rw [if_neg hf]
      by_cases hx : lowerL ct = "fix".toList
      · rw [if_pos hx]
      · rw [if_neg hx]

theorem splitOnChar_append_not_mem (sep : Char) (xs ys : List Char) (h : sep ∉ xs) :
    splitOnChar sep (xs ++ ys) = (splitOnChar sep ys).modifyHead (fun s => xs ++ s) := by
  induction xs with
  | nil =>
    rcases hys : splitOnChar sep ys with _ | ⟨s, ss⟩
    · exact absurd hys (splitOnChar_ne_nil _ _)
    · simp [hys]
  | cons c xs ih =>
    simp only [List.mem_cons, not_or] at h
    rcases hys : splitOnChar sep ys with _ | ⟨s, ss⟩
    · exact absurd hys (splitOnChar_ne_nil _ _)
    · have ih2 := ih h.2
      rw [hys] at ih2
      simp only [List.modifyHead] at ih2
      simp only [List.cons_append, splitOnChar, if_neg (Ne.symm h.1), List.append_eq]
      rw [ih2]
      simp [List.modifyHead]

theorem intercalate_singleton (sep : List Char) (x : List Char) :
    List.intercalate sep [x] = x := by
  simp [List.intercalate]

theorem blankSplit_no_newline (hl : List Char) (h : '\n' ∉ hl) :
    blankSplit hl = [hl] := by
  rw [blankSplit, splitOnChar_of_not_mem '\n' hl h]
  simp [segLinesAux, joinLines, intercalate_singleton]

theorem parse_report_of_no_newline (hl : List Char) (h : '\n' ∉ hl) :
    parse_report hl = parse_headline hl := by
  simp only [parse_report, blankSplit_no_newline hl h, List.headD_cons,
    List.drop_succ_cons, List.drop_zero, List.foldl_nil]
  cases parse_headline hl <;> rfl

theorem segLinesAux_cut (hl : List Char) (s : List Char) (ss : List (List Char)) :
    segLinesAux false [hl] ([] :: s :: ss) = [hl] :: segLinesAux true [] (s :: ss) := by
  simp [segLinesAux, isBlankLine]

theorem parse_report_append_body (hl tail : List Char) (r0 : Report)
    (h1 : '\n' ∉ hl) (h2 : parse_report hl = some r0) :
    parse_report (hl ++ '\n' :: '\n' :: tail) =
      some (((segLinesAux true [] (splitOnChar '\n' tail)).map joinLines).foldl step r0) := by
  have hh : parse_headline hl = some r0 := by
    rw [← parse_report_of_no_newline hl h1]
    exact h2
  have hlines : splitOnChar '\n' (hl ++ '\n' :: '\n' :: tail) =
      hl :: [] :: splitOnChar '\n' tail := by
    rw [splitOnChar_append_not_mem '\n' hl _ h1]
    rw [show splitOnChar '\n' ('\n' :: '\n' :: tail) = [] :: [] :: splitOnChar '\n' tail from by
      simp [splitOnChar]]
    simp [List.modifyHead]
  rcases hS : splitOnChar '\n' tail with _ | ⟨s, ss⟩
  · exact absurd hS (splitOnChar_ne_nil _ _)
  rw [hS] at hlines
  have hbs : blankSplit (hl ++ '\n' :: '\n' :: tail) =
      hl :: (segLinesAux true [] (s :: ss)).map joinLines := by
    rw [blankSplit, hlines]
    show (segLinesAux false [hl] ([] :: s :: ss)).map joinLines = _
    rw [segLinesAux_cut]
    simp [joinLines, intercalate_singleton]
  simp only [parse_report, hbs, List.headD_cons, List.drop_succ_cons, List.drop_zero, hh, hS]

theorem parse_append_single_seg (hl seg : List Char) (r0 : Report)
    (h1 : '\n' ∉ hl) (h2 : parse_report hl = some r0)
    (hseg : (segLinesAux true [] (splitOnChar '\n' seg)).map joinLines = [seg]) :
    parse_report (hl ++ '\n' :: '\n' :: seg) = some (step r0 seg) := by
  rw [parse_report_append_body hl seg r0 h1 h2, hseg, List.foldl_cons, List.foldl_nil]

theorem step_concrete_solves (r0 : Report) :
    step r0 "Solves:\n - a\n - b".toList =
      { r0 with solved_issues := ["a".toList, "b".toList] } := by
  have e1 : trim "Solves:\n - a\n - b".toList = "Solves:\n - a\n - b".toList := by decide
  simp only [step, e1]
  rw [if_neg (by decide), if_pos (by decide)]
  rw [show parse_array "Solves:\n - a\n - b".toList = ["a".toList, "b".toList] from by decide]

theorem step_concrete_related (r0 : Report) :
    step r0 "Related:\n - a\n - b".toList =
      { r0 with related_issues := ["a".toList, "b".toList] } := by
  have e1 : trim "Related:\n - a\n - b".toList = "Related:\n - a\n - b".toList := by decide
  simp only [step, e1]
  rw [if_neg (by decide), if_neg (by decide), if_pos (by decide)]
  rw [show parse_array "Related:\n - a\n - b".toList = ["a".toList, "b".toList] from by decide]

theorem step_concrete_breaking_space (r0 : Report) :
    step r0 "Breaking Changes:\n - a\n - b".toList =
      { r0 with breaking_changes := ["a".toList, "b".toList] } := by
  have e1 : trim "Breaking Changes:\n - a\n - b".toList =
      "Breaking Changes:\n - a\n - b".toList := by decide
  simp only [step, e1]
  rw [if_neg (by decide), if_neg (by decide), if_neg (by decide), if_pos (by decide)]
  rw [show parse_array "Breaking Changes:\n - a\n - b".toList =
    ["a".toList, "b".toList] from by decide]

theorem step_concrete_breaking_underscore (r0 : Report) :
    step r0 "Breaking_Changes:\n - a\n - b".toList =
      { r0 with breaking_changes := ["a".toList, "b".toList] } := by
  have e1 : trim "Breaking_Changes:\n - a\n - b".toList =
      "Breaking_Changes:\n - a\n - b".toList := by decide
  simp only [step, e1]
  rw [if_neg (by decide), if_neg (by decide), if_neg (by decide), if_pos (by decide)]
  rw [show parse_array "Breaking_Changes:\n - a\n - b".toList =
    ["a".toList, "b".toList] from by decide]

/-- Claim C5: appending to any accepted single-segment headline a body
segment `Solves:` followed by the bullets `- a` and `- b` yields
`solved_issues = ["a", "b"]` in source order; likewise `Related:` fills
`related_issues`, and both spellings `Breaking Changes:` and
`Breaking_Changes:` fill `breaking_changes`. -/
theorem c5_labeled_sections (hl : List Char) (r0 : Report)
    (h1 : '\n' ∉ hl) (h2 : parse_report hl = some r0) :
    parse_report (hl ++ "\n\nSolves:\n - a\n - b".toList) =
      some { r0 with solved_issues := ["a".toList, "b".toList] } ∧
    parse_report (hl ++ "\n\nRelated:\n - a\n - b".toList) =
      some { r0 with related_issues := ["a".toList, "b".toList] } ∧
    parse_report (hl ++ "\n\nBreaking Changes:\n - a\n - b".toList) =
      some { r0 with breaking_changes := ["a".toList, "b".toList] } ∧
    parse_report (hl ++ "\n\nBreaking_Changes:\n - a\n - b".toList) =
      some { r0 with breaking_changes := ["a".toList, "b".toList] } := by
  refine ⟨?_, ?_, ?_, ?_⟩
  · rw [show "\n\nSolves:\n - a\n - b".toList =
        '\n' :: '\n' :: "Solves:\n - a\n - b".toList from by decide]
    rw [parse_append_single_seg hl _ r0 h1 h2 (by decide), step_concrete_solves]
  · rw [show "\n\nRelated:\n - a\n - b".toList =
        '\n' :: '\n' :: "Related:\n - a\n - b".toList from by decide]
    rw [parse_append_single_seg hl _ r0 h1 h2 (by decide), step_concrete_related]
  · rw [show "\n\nBreaking Changes:\n - a\n - b".toList =
        '\n' :: '\n' :: "Breaking Changes:\n - a\n - b".toList from by decide]
    rw [parse_append_single_seg hl _ r0 h1 h2 (by decide), step_concrete_breaking_space]
  · rw [show "\n\nBreaking_Changes:\n - a\n - b".toList =
        '\n' :: '\n' :: "Breaking_Changes:\n - a\n - b".toList from by decide]
    rw [parse_append_single_seg hl _ r0 h1 h2 (by decide), step_concrete_breaking_underscore]

/-- Witness for `c5_labeled_sections` at the headline `feat: x`. -/
theorem c5_labeled_sections_witness :
    parse_report ("feat: x".toList ++ "\n\nSolves:\n - a\n - b".toList) =
      some ⟨"x".toList, none, [], FEAT_TYPE, [], ["a".toList, "b".toList], []⟩ ∧
    parse_report ("feat: x".toList ++ "\n\nRelated:\n - a\n - b".toList) =
      some ⟨"x".toList, none, [], FEAT_TYPE, ["a".toList, "b".toList], [], []⟩ ∧
    parse_report ("feat: x".toList ++ "\n\nBreaking Changes:\n - a\n - b".toList) =
      some ⟨"x".toList, none, [], FEAT_TYPE, [], [], ["a".toList, "b".toList]⟩ ∧
    parse_report ("feat: x".toList ++ "\n\nBreaking_Changes:\n - a\n - b".toList) =
      some ⟨"x".toList, none, [], FEAT_TYPE, [], [], ["a".toList, "b".toList]⟩ :=
  c5_labeled_sections "feat: x".toList ⟨"x".toList, none, [], FEAT_TYPE, [], [], []⟩
    (by decide) (by decide)

theorem collectTagCommits_eq_none_iff (rv : List Char → Option TagObject)
    (l : List (List Char)) :
    collectTagCommits rv l = none ↔ ∃ u ∈ l, rv u = none := by
  induction l with
  | nil => simp [collectTagCommits]
  | cons t ts ih =>
    simp only [collectTagCommits]
    rcases hrv : rv t with _ | obj
    · simp only [hrv, List.mem_cons]
      exact ⟨fun _ => ⟨t, Or.inl rfl, hrv⟩, fun _ => trivial⟩
    · simp only [hrv]
      rcases hpe : obj.peel_to_commit with _ | c
      · simp only [hpe]
        rw [ih]
        simp [hrv]
      · simp only [hpe]
        rw [Option.map_eq_none', ih]
        simp [hrv]

theorem collectTagCommits_skip (rv : List Char → Option TagObject)
    (l1 l2 : List (List Char)) (t : List Char) (obj : TagObject)
    (h1 : rv t = some obj) (h2 : obj.peel_to_commit = none) :
    collectTagCommits rv (l1 ++ t :: l2) = collectTagCommits rv (l1 ++ l2) := by
  induction l1 with
  | nil =>
    simp only [List.nil_append, collectTagCommits, h1, h2]
  | cons s l1 ih =>
    simp only [List.cons_append, collectTagCommits]
    rcases hrs : rv s with _ | o
    · simp only [hrs]
    · simp only [hrs]
      rcases hpe : o.peel_to_commit with _ | c
      · simp only [hpe]
        exact ih
      · simp only [hpe, List.append_eq, ih]

/-- The repository used as counterexample for claim C4: one tag whose name
never resolves to an object. -/
def badTagRepo : TagRepo := ⟨[some "v1".toList], fun _ => none⟩

/-- Claim C4, counterexample: on a repository holding a single tag whose
name does not resolve, `find_latest_tag_commit_id` aborts (the `expect`
call panics — modelled by the outer `none`) instead of skipping the tag;
with the bad tag absent the same repository yields the clean "no tags"
answer `some none`. -/
theorem c4_counterexample :
    find_latest_tag_commit_id badTagRepo = none ∧
    find_latest_tag_commit_id ⟨[], badTagRepo.revparse_single⟩ = some none := by
  exact ⟨rfl, rfl⟩

/-- Claim C4 (amended): a tag name that resolves to an object which cannot
be peeled to a commit is excluded from the latest-tag computation and the
run continues; but the run aborts (returns the panic marker `none`)
exactly when some tag name fails to resolve to any object at all. -/
theorem c4_soft_skip_amended
    (tags1 tags2 : List (Option (List Char))) (rv : List Char → Option TagObject)
    (t : List Char) (obj : TagObject)
    (h1 : rv t = some obj) (h2 : obj.peel_to_commit = none) :
    find_latest_tag_commit_id ⟨tags1 ++ some t :: tags2, rv⟩ =
      find_latest_tag_commit_id ⟨tags1 ++ tags2, rv⟩ ∧
    ∀ repo : TagRepo,
      (find_latest_tag_commit_id repo = none ↔
        ∃ u ∈ repo.tag_names.filterMap id, repo.revparse_single u = none) := by
  constructor
  · show (match collectTagCommits rv ((tags1 ++ some t :: tags2).filterMap id) with
      | none => none
      | some cs => some ((sortByTime cs).getLast?.map TagCommit.id)) =
      (match collectTagCommits rv ((tags1 ++ tags2).filterMap id) with
      | none => none
      | some cs => some ((sortByTime cs).getLast?.map TagCommit.id))
    rw [List.filterMap_append, List.filterMap_append, List.filterMap_cons]
    simp only [id]
    rw [collectTagCommits_skip rv _ _ t obj h1 h2]
  · intro repo
    rw [find_latest_tag_commit_id]
    cases hc : collectTagCommits repo.revparse_single (repo.tag_names.filterMap id) with
    | none =>
      rw [collectTagCommits_eq_none_iff] at hc
      exact ⟨fun _ => hc, fun _ => rfl⟩
    | some cs =>
      refine ⟨fun h => Option.noConfusion h, fun hex => ?_⟩
      have hcon := (collectTagCommits_eq_none_iff _ _).mpr hex
      rw [hc] at hcon
      exact Option.noConfusion hcon

/-- Sample resolver for the C4 witness: the tag `bad` resolves to an
object that is not a commit, every other name to a commit. -/
def c4SampleRv : List Char → Option TagObject :=
  fun u => if u = "bad".toList then some ⟨none⟩ else some ⟨some ⟨7, 5⟩⟩

/-- Witness for `c4_soft_skip_amended`: dropping the unpeelable tag `bad`
does not change the result. -/
theorem c4_soft_skip_amended_witness :
    find_latest_tag_commit_id ⟨[some "good".toList] ++ some "bad".toList :: [], c4SampleRv⟩ =
      find_latest_tag_commit_id ⟨[some "good".toList] ++ [], c4SampleRv⟩ :=
  (c4_soft_skip_amended [some "good".toList] [] c4SampleRv "bad".toList ⟨none⟩
    (by decide) rfl).1

theorem strLt_trans (a b c : List Char) (h1 : strLt a b = true) (h2 : strLt b c = true) :
    strLt a c = true := by
  induction a generalizing b c with
  | nil =>
    cases b with
    | nil => simp [strLt] at h1
    | cons bh bt =>
      cases c with
      | nil => simp [strLt] at h2
      | cons ch ct => simp [strLt]
  | cons ah as ih =>
    cases b with
    | nil => simp [strLt] at h1
    | cons bh bt =>
      cases c with
      | nil => simp [strLt] at h2
      | cons ch ct =>
        simp only [strLt] at h1 h2 ⊢
        rcases lt_trichotomy ah bh with hab | hab | hab
        · rcases lt_trichotomy bh ch with hbc | hbc | hbc
          · rw [if_pos (lt_trans hab hbc)]
          · subst hbc
            rw [if_pos hab]
          · rw [if_neg (lt_asymm hbc), if_pos hbc] at h2
            cases h2
        · subst hab
          rw [if_neg (lt_irrefl _), if_neg (lt_irrefl _)] at h1
          rcases lt_trichotomy ah ch with hac | hac | hac
          · rw [if_pos hac]
          · subst hac
            rw [if_neg (lt_irrefl _), if_neg (lt_irrefl _)] at h2
            rw [if_neg (lt_irrefl _), if_neg (lt_irrefl _)]
            exact ih _ _ h1 h2
          · rw [if_neg (lt_asymm hac), if_pos hac] at h2
            cases h2
        · rw [if_neg (lt_asymm hab), if_pos hab] at h1
          cases h1

theorem strLt_conn (a b : List Char) (hne : a ≠ b) :
    strLt a b = true ∨ strLt b a = true := by
  induction a generalizing b with
  | nil =>
    cases b with
    | nil => exact absurd rfl hne
    | cons bh bt => left; simp [strLt]
  | cons ah as ih =>
    cases b with
    | nil => right; simp [strLt]
    | cons bh bt =>
      rcases lt_trichotomy ah bh with h | h | h
      · left
        simp [strLt, h]
      · subst h
        have hne2 : as ≠ bt := by
          intro he
          exact hne (by rw [he])
        rcases ih bt hne2 with h' | h'
        · left
          simp [strLt, lt_irrefl, h']
        · right
          simp [strLt, lt_irrefl, h']
      · right
        simp [strLt, h]

/-- The sortedness invariant of the `BTreeMap` model: keys strictly
increase. -/
def keySorted (l : List (List Char × (List Report × List Report))) : Prop :=
  l.Pairwise (fun a b => strLt a.1 b.1 = true)

theorem mapUpdate_keys (k : List Char) (ct : Nat) (r : Report)
    (l m : List (List Char × (List Report × List Report)))
    (h : mapUpdate k ct r l = some m) :
    ∀ e ∈ m, e.1 = k ∨ e.1 ∈ l.map Prod.fst := by
  induction l generalizing m with
  | nil =>
    simp only [mapUpdate] at h
    cases hb : bucketPush ct r ([], []) with
    | none => rw [hb, Option.map_none'] at h; cases h
    | some v =>
      rw [hb, Option.map_some'] at h
      cases h
      intro e he
      simp only [List.mem_singleton] at he
      subst he
      exact Or.inl rfl
  | cons p l ih =>
    rcases p with ⟨k', v'⟩
    simp only [mapUpdate] at h
    split at h
    · cases hb : bucketPush ct r ([], []) with
      | none => rw [hb, Option.map_none'] at h; cases h
      | some v =>
        rw [hb, Option.map_some'] at h
        cases h
        intro e he
        simp only [List.mem_cons] at he
        rcases he with rfl | rfl | he
        · exact Or.inl rfl
        · right; simp
        · right
          simp only [List.map_cons, List.mem_cons]
          exact Or.inr (List.mem_map_of_mem Prod.fst he)
    · split at h
      · cases hb : bucketPush ct r v' with
        | none => rw [hb, Option.map_none'] at h; cases h
        | some v =>
          rw [hb, Option.map_some'] at h
          cases h
          intro e he
          simp only [List.mem_cons] at he
          rcases he with rfl | he
          · exact Or.inl rfl
          · right
            simp only [List.map_cons, List.mem_cons]
            exact Or.inr (List.mem_map_of_mem Prod.fst he)
      · cases hm : mapUpdate k ct r l with
        | none => rw [hm, Option.map_none'] at h; cases h
        | some m' =>
          rw [hm, Option.map_some'] at h
          cases h
          intro e he
          simp only [List.mem_cons] at he
          rcases he with rfl | he
          · right; simp
          · rcases ih m' hm e he with h' | h'
            · exact Or.inl h'
            · right
              simp only [List.map_cons, List.mem_cons]
              exact Or.inr h'

theorem mapUpdate_sorted (k : List Char) (ct : Nat) (r : Report)
    (l m : List (List Char × (List Report × List Report)))
    (hs : keySorted l) (h : mapUpdate k ct r l = some m) : keySorted m := by
  induction l generalizing m with
  | nil =>
    simp only [mapUpdate] at h
    cases hb : bucketPush ct r ([], []) with
    | none => rw [hb, Option.map_none'] at h; cases h
    | some v =>
      rw [hb, Option.map_some'] at h
      cases h
      exact List.pairwise_singleton _ _
  | cons p l ih =>
    rcases p with ⟨k', v'⟩
    rw [keySorted, List.pairwise_cons] at hs
    obtain ⟨hp, hl⟩ := hs
    simp only [mapUpdate] at h
    split at h
    · rename_i hlt
      cases hb : bucketPush ct r ([], []) with
      | none => rw [hb, Option.map_none'] at h; cases h
      | some v =>
        rw [hb, Option.map_some'] at h
        cases h
        rw [keySorted, List.pairwise_cons]
        refine ⟨?_, List.pairwise_cons.mpr ⟨hp, hl⟩⟩
        intro e he
        simp only [List.mem_cons] at he
        rcases he with rfl | he
        · exact hlt
        · exact strLt_trans _ _ _ hlt (hp e he)
    · split at h
      · rename_i hlt heq
        cases hb : bucketPush ct r v' with
        | none => rw [hb, Option.map_none'] at h; cases h
        | some v =>
          rw [hb, Option.map_some'] at h
          cases h
          rw [keySorted, List.pairwise_cons]
          refine ⟨?_, hl⟩
          intro e he
          rw [heq]
          exact hp e he
      · rename_i hlt heq
        cases hm : mapUpdate k ct r l with
        | none => rw [hm, Option.map_none'] at h; cases h
        | some m' =>
          rw [hm, Option.map_some'] at h
          cases h
          rw [keySorted, List.pairwise_cons]
          refine ⟨?_, ih m' hl hm⟩
          intro e he
          rcases mapUpdate_keys k ct r l m' hm e he with h' | h'
          · rw [h']
            rcases strLt_conn k' k (fun hk => heq hk.symm) with hx | hx
            · exact hx
            · exact absurd hx hlt
          · rw [List.mem_map] at h'
            obtain ⟨b, hb, hbe⟩ := h'
            rw [← hbe]
            exact hp b hb

theorem bucketPush_ne_nil (ct : Nat) (r : Report) (v v' : List Report × List Report)
    (h : bucketPush ct r v = some v') : v'.1 ≠ [] ∨ v'.2 ≠ [] := by
  unfold bucketPush at h
  split at h
  · cases h
    left
    simp
  · split at h
    · cases h
      right
      simp
    · cases h

/-- The aggregator invariant of claim C10: every context key present in
the map has at least one report in the union of its two buckets. -/
def AggInv (agg : ReportAggregator) : Prop :=
  ∀ e ∈ agg.reports, e.2.1 ≠ [] ∨ e.2.2 ≠ []

theorem mapUpdate_inv (k : List Char) (ct : Nat) (r : Report)
    (l m : List (List Char × (List Report × List Report)))
    (hi : ∀ e ∈ l, e.2.1 ≠ [] ∨ e.2.2 ≠ []) (h : mapUpdate k ct r l = some m) :
    ∀ e ∈ m, e.2.1 ≠ [] ∨ e.2.2 ≠ [] := by
  induction l generalizing m with
  | nil =>
    simp only [mapUpdate] at h
    cases hb : bucketPush ct r ([], []) with
    | none => rw [hb, Option.map_none'] at h; cases h
    | some v =>
      rw [hb, Option.map_some'] at h
      cases h
      intro e he
      simp only [List.mem_singleton] at he
      subst he
      exact bucketPush_ne_nil ct r _ _ hb
  | cons p l ih =>
    rcases p with ⟨k', v'⟩
    have hp := hi (k', v') (List.mem_cons_self _ _)
    have hil : ∀ e ∈ l, e.2.1 ≠ [] ∨ e.2.2 ≠ [] :=
      fun e he => hi e (List.mem_cons_of_mem _ he)
    simp only [mapUpdate] at h
    split at h
    · cases hb : bucketPush ct r ([], []) with
      | none => rw [hb, Option.map_none'] at h; cases h
      | some v =>
        rw [hb, Option.map_some'] at h
        cases h
        intro e he
        simp only [List.mem_cons] at he
        rcases he with rfl | rfl | he
        · exact bucketPush_ne_nil ct r _ _ hb
        · exact hp
        · exact hil e he
    · split at h
      · cases hb : bucketPush ct r v' with
        | none => rw [hb, Option.map_none'] at h; cases h
        | some v =>
          rw [hb, Option.map_some'] at h
          cases h
          intro e he
          simp only [List.mem_cons] at he
          rcases he with rfl | he
          · exact bucketPush_ne_nil ct r _ _ hb
          · exact hil e he
      · cases hm : mapUpdate k ct r l with
        | none => rw [hm, Option.map_none'] at h; cases h
        | some m' =>
          rw [hm, Option.map_some'] at h
          cases h
          intro e he
          simp only [List.mem_cons] at he
          rcases he with rfl | he
          · exact hp
          · exact ih m' hil hm e he

theorem add_report_sorted (agg : ReportAggregator) (r : Report) (agg' : ReportAggregator)
    (hs : keySorted agg.reports) (h : agg.add_report r = some agg') :
    keySorted agg'.reports := by
  rw [ReportAggregator.add_report] at h
  cases hm : mapUpdate r.context r.commit_type r agg.reports with
  | none => rw [hm, Option.map_none'] at h; cases h
  | some m =>
    rw [hm, Option.map_some'] at h
    cases h
    exact mapUpdate_sorted _ _ _ _ _ hs hm

theorem addAll_sorted (rs : List Report) (agg0 agg : ReportAggregator)
    (hs : keySorted agg0.reports) (h : addAll agg0 rs = some agg) :
    keySorted agg.reports := by
  induction rs generalizing agg0 with
  | nil =>
    simp only [addAll] at h
    cases h
    exact hs
  | cons r rs ih =>
    simp only [addAll] at h
    cases ha : agg0.add_report r with
    | none => rw [ha] at h; cases h
    | some a =>
      rw [ha] at h
      exact ih a (add_report_sorted agg0 r a hs ha) h

/-- Claim C7: the renderer iterates contexts in lexicographic key order
(every aggregator built by `add_report` has strictly increasing keys, so
the fold of `print` visits them in that order); a context heading `### k`
is emitted only for a non-empty key, Feature and Fix sections use
`### General Features` / `### General Fixes` for the empty context and
`#### Features` / `#### Fixes` otherwise, and the `BREAKING CHANGES`
section appears exactly when entries were collected — exercised on a
single empty-context Fix report and on a two-context aggregate with
breaking changes. -/
theorem c7_render (rs : List Report) (agg : ReportAggregator)
    (h : addAll ReportAggregator.new rs = some agg) :
    keySorted agg.reports ∧
    (addAll ReportAggregator.new [⟨"Some fix".toList, none, [], FIX_TYPE, [], [], []⟩]).map
        ReportAggregator.print =
      some "### General Fixes\n\nSome fix\n\n\n".toList ∧
    (addAll ReportAggregator.new
        [⟨"Add stuff".toList, none, "ctx".toList, FEAT_TYPE, [], [], ["bc1".toList]⟩,
         ⟨"Fix it".toList, none, [], FIX_TYPE, [], [], []⟩,
         ⟨"Fix ctx".toList, none, "ctx".toList, FIX_TYPE, [], [], ["bc2".toList]⟩]).map
        ReportAggregator.print =
      some ("### General Fixes\n\nFix it\n\n\n### ctx\n\n#### Features\n\nAdd stuff\n\n\n".toList ++
        "#### Fixes\n\nFix ctx\n\n\n### BREAKING CHANGES\n\nbc1\n\nbc2\n\n".toList) := by
  refine ⟨addAll_sorted rs ReportAggregator.new agg (List.Pairwise.nil) h, by decide, by decide⟩

/-- Witness for `c7_render` at a single-report aggregation. -/
theorem c7_render_witness :
    keySorted (ReportAggregator.reports
      ⟨[([], ([], [⟨"Some fix".toList, none, [], FIX_TYPE, [], [], []⟩]))], []⟩) ∧
    (addAll ReportAggregator.new [⟨"Some fix".toList, none, [], FIX_TYPE, [], [], []⟩]).map
        ReportAggregator.print =
      some "### General Fixes\n\nSome fix\n\n\n".toList ∧
    (addAll ReportAggregator.new
        [⟨"Add stuff".toList, none, "ctx".toList, FEAT_TYPE, [], [], ["bc1".toList]⟩,
         ⟨"Fix it".toList, none, [], FIX_TYPE, [], [], []⟩,
         ⟨"Fix ctx".toList, none, "ctx".toList, FIX_TYPE, [], [], ["bc2".toList]⟩]).map
        ReportAggregator.print =
      some ("### General Fixes\n\nFix it\n\n\n### ctx\n\n#### Features\n\nAdd stuff\n\n\n".toList ++
        "#### Fixes\n\nFix ctx\n\n\n### BREAKING CHANGES\n\nbc1\n\nbc2\n\n".toList) :=
  c7_render [⟨"Some fix".toList, none, [], FIX_TYPE, [], [], []⟩]
    ⟨[([], ([], [⟨"Some fix".toList, none, [], FIX_TYPE, [], [], []⟩]))], []⟩ (by decide)

/-- Claim C10: the empty aggregator satisfies the invariant that every
context key owns at least one report in the union of its two buckets, and
`add_report` preserves it: a context entry is only ever created or updated
by simultaneously pushing the report into one of its two buckets. -/
theorem c10_agg_invariant (agg : ReportAggregator) (r : Report) (agg' : ReportAggregator)
    (h1 : AggInv agg) (h2 : agg.add_report r = some agg') :
    AggInv agg' ∧ AggInv ReportAggregator.new := by
  constructor
  · rw [ReportAggregator.add_report] at h2
    cases hm : mapUpdate r.context r.commit_type r agg.reports with
    | none => rw [hm, Option.map_none'] at h2; cases h2
    | some m =>
      rw [hm, Option.map_some'] at h2
      cases h2
      intro e he
      exact mapUpdate_inv _ _ _ _ _ h1 hm e he
  · intro e he
    exact absurd he (List.not_mem_nil e)

/-- Witness for `c10_agg_invariant`: adding one Fix report to the fresh
aggregator keeps the invariant. -/
theorem c10_agg_invariant_witness :
    AggInv ⟨[([], ([], [⟨"Some fix".toList, none, [], FIX_TYPE, [], [], []⟩]))], []⟩ ∧
    AggInv ReportAggregator.new :=
  c10_agg_invariant ReportAggregator.new ⟨"Some fix".toList, none, [], FIX_TYPE, [], [], []⟩
    ⟨[([], ([], [⟨"Some fix".toList, none, [], FIX_TYPE, [], [], []⟩]))], []⟩
    (fun e he => absurd he (List.not_mem_nil e)) (by decide)
